import Mathlib

/-!
Verification of the PlasmidLLM core algorithms against their specification.

The embedding below translates, definition by definition, the two core
components of the repository:

* the region partitioner of src/plasmid_pretraining/annotators.py
  (identify_insert_regions_pk, calculate_backbone_regions,
  create_annotated_sequence), and
* the sequence risk scorer of src/nextflow/bin/seq_qc.py
  (calculate_gc_content, find_homopolymers, find_tandem_repeats,
  calculate_linguistic_complexity, find_gc_extremes, find_hairpins,
  calculate_synthesis_risk, and their composition score_sequence from main).

Modelling conventions:
* Python strings become List Char; slicing s[a:b] becomes pySlice (clipping,
  like Python).
* Python floats become rationals; the numeric literals 0.15, 0.25, 0.10,
  0.20, 0.65, 0.35, 0.70, 0.30 are written 3/20, 1/4, 1/10, 1/5, 13/20,
  7/20, 7/10, 3/10.
* Python f-string reason messages become a tagged inductive type Reason
  carrying the interpolated payloads; the surrounding text is presentation
  only.
* A raised Python exception becomes the value none of an Option result.
  The dictionary returned by find_gc_extremes stores, under the keys
  high_gc_regions and low_gc_regions, integers on the long-sequence branch
  but lists on the short-sequence branch; this dynamic typing is modelled
  by the sum type GcCountVal, and the Python TypeError raised when such a
  value is compared with an integer becomes none.
* Python while loops whose index jumps forward are translated with an
  explicit fuel argument that counts remaining iterations; callers pass a
  fuel that dominates the iteration count (each iteration advances the
  position by at least one, so length-many iterations suffice).
* list.sort and sorted are stable in Python; they are modelled by a stable
  insertion sort.
-/

/-- One annotated feature as consumed by identify_insert_regions_pk: the
source reads the keys type, start and end of a PlasmidKit feature dict via
f.get, so the type may be absent and start and end are (possibly negative)
integers defaulting to 0. -/
structure Feature where
  type : Option String
  start : Int
  stop : Int
deriving DecidableEq

/-- The InsertRegion dataclass of annotators.py. The source field named end
is called stop here; end is a Lean keyword. -/
structure InsertRegion where
  start : Nat
  stop : Nat
  length : Nat
  gene_name : Option String := none
  product : Option String := none
  insert_type : Option String := none
  confidence : ℚ := 1/2
  features_included : List String := []
  strand : Int := 1
deriving DecidableEq

/-- One backbone-region dict as built by calculate_backbone_regions. -/
structure BackboneRegion where
  start : Nat
  stop : Nat
  length : Nat
  type : String
deriving DecidableEq

/-- Python slice s[a:b] on lists (clips at both ends, empty when b is at or
before a). -/
def pySlice (s : List Char) (a b : Nat) : List Char :=
  (s.drop a).take (b - a)

/-- Insert x into a sorted list, before the first element y with le x y;
the helper of the stable insertion sort below. -/
def insertSorted (le : α → α → Bool) (x : α) : List α → List α
  | [] => [x]
  | y :: ys => if le x y then x :: y :: ys else y :: insertSorted le x ys

/-- Stable sort modelling Python list.sort and sorted: elements comparing
equal keep their original relative order. -/
def insertionSortBy (le : α → α → Bool) : List α → List α
  | [] => []
  | x :: xs => insertSorted le x (insertionSortBy le xs)

/-- The backbone feature types of identify_insert_regions_pk. -/
def backbone_types : List String :=
  ["rep_origin", "marker", "promoter", "terminator"]

/-- The membership test f.get(\x22type\x22) in backbone_types used to build
backbone_feats. -/
def is_backbone_feature (f : Feature) : Bool :=
  match f.type with
  | some t => backbone_types.contains t
  | none => false

/-- Sets count consecutive positions of a boolean list to true, starting at
index s; models the loop for i in range(start, end): is_backbone[i] = True,
with count = end - start. -/
def setTrueRange : List Bool → Nat → Nat → List Bool
  | l, _, 0 => l
  | l, s, n + 1 => setTrueRange (l.set s true) (s + 1) n

/-- The InsertRegion built when a gap of [s, e) is recorded by
identify_insert_regions_pk. -/
def mkGapRegion (s e : Nat) : InsertRegion :=
  { start := s, stop := e, length := e - s,
    insert_type := some ("gap_in_backbone"), confidence := 7/10,
    features_included := ["unknown_cargo"] }

/-- The left-to-right scan of identify_insert_regions_pk over the backbone
mask: i is the absolute position of the head of the remaining mask, cur is
the start of the currently open uncovered run (the Python sentinel -1
becomes none), and a closed run of at least min_gap_size positions is
recorded; the trailing run is handled when the mask is exhausted. -/
def findGapRuns : List Bool → Nat → Option Nat → Nat → List InsertRegion
  | [], i, cur, min_gap_size =>
    match cur with
    | some s => if min_gap_size ≤ i - s then [mkGapRegion s i] else []
    | none => []
  | b :: rest, i, cur, min_gap_size =>
    if b then
      match cur with
      | some s =>
        (if min_gap_size ≤ i - s then [mkGapRegion s i] else []) ++
          findGapRuns rest (i + 1) none min_gap_size
      | none => findGapRuns rest (i + 1) none min_gap_size
    else
      match cur with
      | some s => findGapRuns rest (i + 1) (some s) min_gap_size
      | none => findGapRuns rest (i + 1) (some i) min_gap_size

/-- The backbone coverage mask of identify_insert_regions_pk: one boolean
per base, set to true over the clipped span of each backbone feature
(the loop for f in backbone_feats with the inner range(start, end)). -/
def buildBackboneMask (seq_len : Nat) (backbone_feats : List Feature) : List Bool :=
  backbone_feats.foldl
    (fun mask f =>
      let s := max 0 f.start
      let e := min (seq_len : Int) f.stop
      setTrueRange mask s.toNat (e - s).toNat)
    (List.replicate seq_len false)

/-- identify_insert_regions_pk of annotators.py: empty sequences give the
tag pk_empty, feature lists without backbone-typed features give the tag
pk_no_backbone, and otherwise the uncovered gaps of length at least 300 in
the backbone coverage mask become insert regions with overall confidence
0.8 and tag plasmid_kit_gap. -/
def identify_insert_regions_pk (sequence : List Char) (pk_features : List Feature) :
    List InsertRegion × ℚ × String :=
  let seq_len := sequence.length
  if seq_len = 0 then ([], 0, "pk_empty")
  else
    let backbone_feats := pk_features.filter is_backbone_feature
    if backbone_feats = [] then ([], 0, "pk_no_backbone")
    else
      let backbone_feats := insertionSortBy (fun a b => decide (a.start ≤ b.start)) backbone_feats
      let is_backbone := buildBackboneMask seq_len backbone_feats
      let min_gap_size := 300
      let insert_regions := findGapRuns is_backbone 0 none min_gap_size
      (insert_regions, 4/5, "plasmid_kit_gap")

/-- The loop body of calculate_backbone_regions: acc carries the backbone
regions built so far together with the cursor; a gap before the next
insert region becomes one backbone region and the cursor advances to
max(cursor, r.end). -/
def backboneStep (acc : List BackboneRegion × Nat) (r : InsertRegion) :
    List BackboneRegion × Nat :=
  (if acc.2 < r.start then
      acc.1 ++ [{ start := acc.2, stop := r.start, length := r.start - acc.2,
                  type := "backbone" }]
    else acc.1,
   max acc.2 r.stop)

/-- calculate_backbone_regions of annotators.py: the complement of the
(sorted) insert regions over [0, seq_len), built by a cursor sweep. -/
def calculate_backbone_regions (seq_len : Nat) (insert_regions : List InsertRegion) :
    List BackboneRegion :=
  if seq_len = 0 then []
  else
    let inserts := insertionSortBy (fun a b => decide (a.start ≤ b.start)) insert_regions
    let acc := inserts.foldl backboneStep ([], 0)
    if acc.2 < seq_len then
      acc.1 ++ [{ start := acc.2, stop := seq_len, length := seq_len - acc.2,
                  type := "backbone" }]
    else acc.1

/-- Recursive form of the cursor sweep of calculate_backbone_regions: the
backbone pieces strictly between the cursor and the given insert regions,
together with the final cursor; proved equal to the foldl below. -/
def compGaps : Nat → List InsertRegion → List BackboneRegion × Nat
  | c, [] => ([], c)
  | c, r :: rs =>
    let head := if c < r.start then
        [{ start := c, stop := r.start, length := r.start - c, type := "backbone" }]
      else []
    let t := compGaps (max c r.stop) rs
    (head ++ t.1, t.2)

/-- The full backbone complement of a region list between the cursor c and
the sequence end L, including the trailing piece. -/
def bbFull (L c : Nat) (rs : List InsertRegion) : List BackboneRegion :=
  (compGaps c rs).1 ++
    (if (compGaps c rs).2 < L then
      [{ start := (compGaps c rs).2, stop := L, length := L - (compGaps c rs).2,
         type := "backbone" }]
    else [])

/-- Sorted non-overlapping layout of insert regions between lo and hi:
consecutive regions are nonempty, ordered, within bounds, and carry a
consistent length field. -/
def regionChain : Nat → List InsertRegion → Nat → Prop
  | lo, [], hi => lo ≤ hi
  | lo, r :: rs, hi =>
    lo ≤ r.start ∧ r.start < r.stop ∧ r.length = r.stop - r.start ∧ regionChain r.stop rs hi

/-- Sorted non-overlapping layout of backbone regions between lo and hi. -/
def bbChain : Nat → List BackboneRegion → Nat → Prop
  | lo, [], hi => lo ≤ hi
  | lo, b :: bs, hi =>
    lo ≤ b.start ∧ b.start < b.stop ∧ b.length = b.stop - b.start ∧ bbChain b.stop bs hi

/-- The placeholder token inserted for the idx-th region (1-based, counted
from the region with the highest start) by create_annotated_sequence. -/
def insertToken (idx : Nat) : List Char :=
  (("<INSERT_" ++ toString idx ++ ">") : String).toList

/-- create_annotated_sequence of annotators.py: replaces each insert region
span with its placeholder token, walking the regions in descending start
order so earlier replacements keep later offsets valid. -/
def create_annotated_sequence (sequence : List Char) (insert_regions : List InsertRegion) :
    List Char :=
  if sequence = [] then []
  else if insert_regions = [] then sequence
  else
    let sorted := insertionSortBy (fun a b => decide (b.start ≤ a.start)) insert_regions
    sorted.enum.foldl
      (fun ann p =>
        ann.take p.2.start ++ insertToken (p.1 + 1) ++ ann.drop p.2.stop)
      sequence

/-- The four DNA bases, as the Python membership tests against the string
ATCG. -/
def dnaBases : List Char := ['A', 'T', 'C', 'G']

/-- calculate_gc_content of seq_qc.py. -/
def calculate_gc_content (sequence : List Char) : ℚ :=
  if sequence = [] then 0
  else
    let u := sequence.map Char.toUpper
    let gc_count := u.count 'G' + u.count 'C'
    (gc_count : ℚ) / (u.length : ℚ)

/-- One homopolymer dict of find_homopolymers (keys start, end, base,
length; end renamed stop). -/
structure HomoRun where
  start : Nat
  stop : Nat
  base : Char
  length : Nat
deriving DecidableEq

/-- The result dict of find_homopolymers. -/
structure Homopolymers where
  max_length : Nat
  count : Nat
  total_bases : Nat
  positions : List HomoRun
deriving DecidableEq

/-- Length of the run of copies of base at the head of the list; models the
inner while loop of find_homopolymers that advances j while sequence[j]
equals base. -/
def countRun (base : Char) : List Char → Nat
  | [] => 0
  | c :: rest => if c = base then countRun base rest + 1 else 0

/-- The outer while loop of find_homopolymers: seq is the suffix of the
uppercased sequence starting at absolute position i; a non-ACGT head
advances by one, otherwise the whole run is consumed at once and recorded
when long enough. The fuel dominates the number of iterations (each one
consumes at least one character). -/
def homoScan (fuel : Nat) (seq : List Char) (i : Nat) (min_length : Nat) : List HomoRun :=
  match fuel, seq with
  | 0, _ => []
  | _, [] => []
  | fuel + 1, base :: rest =>
    if base ∈ dnaBases then
      let runLen := 1 + countRun base rest
      let tail := homoScan fuel (rest.drop (countRun base rest)) (i + runLen) min_length
      if min_length ≤ runLen then
        { start := i, stop := i + runLen, base := base, length := runLen } :: tail
      else tail
    else homoScan fuel rest (i + 1) min_length

/-- find_homopolymers of seq_qc.py (min_length defaults to 5); max with
default 0 becomes a fold, and positions keeps the first 20 runs. -/
def find_homopolymers (sequence : List Char) (min_length : Nat := 5) : Homopolymers :=
  let u := sequence.map Char.toUpper
  let homopolymers := homoScan u.length u 0 min_length
  { max_length := (homopolymers.map (fun h => h.length)).foldr max 0,
    count := homopolymers.length,
    total_bases := (homopolymers.map (fun h => h.length)).sum,
    positions := homopolymers.take 20 }

/-- One repeat dict of find_tandem_repeats (end renamed stop). -/
structure RepeatRec where
  start : Nat
  stop : Nat
  unit : List Char
  unit_length : Nat
  copies : Nat
  total_length : Nat
deriving DecidableEq

/-- The result dict of find_tandem_repeats. -/
structure TandemRepeats where
  count : Nat
  total_bases : Nat
  fraction : ℚ
  longest : Nat
  repeats : List RepeatRec
deriving DecidableEq

/-- The inner while loop of find_tandem_repeats: counts consecutive copies
of unit from absolute position j on, returning (copies, j) as left by the
loop. The fuel dominates the number of iterations. -/
def tandemInner (fuel : Nat) (seq : List Char) (unit : List Char) (unit_len : Nat)
    (j : Nat) (copies : Nat) : Nat × Nat :=
  match fuel with
  | 0 => (copies, j)
  | fuel + 1 =>
    if j + unit_len ≤ seq.length ∧ pySlice seq j (j + unit_len) = unit then
      tandemInner fuel seq unit unit_len (j + unit_len) (copies + 1)
    else (copies, j)

/-- The outer while loop of find_tandem_repeats for one unit length: the
Python condition i <= len(sequence) - unit_len * min_copies over possibly
negative integers is i + unit_len * min_copies <= len over naturals; a
recorded repeat advances the scan to j, otherwise i advances by one. -/
def tandemScan (fuel : Nat) (seq : List Char) (unit_len : Nat) (min_copies : Nat)
    (i : Nat) : List RepeatRec :=
  match fuel with
  | 0 => []
  | fuel + 1 =>
    if i + unit_len * min_copies ≤ seq.length then
      let unit := pySlice seq i (i + unit_len)
      let cj := tandemInner seq.length seq unit unit_len (i + unit_len) 1
      if min_copies ≤ cj.1 then
        { start := i, stop := cj.2, unit := unit, unit_length := unit_len,
          copies := cj.1, total_length := cj.1 * unit_len } ::
          tandemScan fuel seq unit_len min_copies cj.2
      else tandemScan fuel seq unit_len min_copies (i + 1)
    else []

/-- find_tandem_repeats of seq_qc.py (defaults min_unit 2, max_unit 10,
min_copies 3): the per-unit-length scans are concatenated in unit-length
order, exactly as the Python loop appends into one list. -/
def find_tandem_repeats (sequence : List Char) (min_unit : Nat := 2) (max_unit : Nat := 10)
    (min_copies : Nat := 3) : TandemRepeats :=
  let u := sequence.map Char.toUpper
  let repeats :=
    ((List.range' min_unit (max_unit + 1 - min_unit)).map
      (fun unit_len => tandemScan (u.length + 1) u unit_len min_copies 0)).flatten
  let total_repeat_bases := (repeats.map (fun r => r.total_length)).sum
  { count := repeats.length,
    total_bases := total_repeat_bases,
    fraction := if sequence = [] then 0
      else (total_repeat_bases : ℚ) / (sequence.length : ℚ),
    longest := (repeats.map (fun r => r.total_length)).foldr max 0,
    repeats := repeats.take 20 }

/-- The set.add call of calculate_linguistic_complexity: a Python set is
modelled as a duplicate-free list in insertion order, of which only the
cardinality is ever read. -/
def pySetInsert (acc : List (List Char)) (x : List Char) : List (List Char) :=
  if x ∈ acc then acc else acc ++ [x]

/-- calculate_linguistic_complexity of seq_qc.py (k defaults to 3). -/
def calculate_linguistic_complexity (sequence : List Char) (k : Nat := 3) : ℚ :=
  if sequence.length < k then 0
  else
    let u := sequence.map Char.toUpper
    let kmers := (List.range (u.length - k + 1)).foldl
      (fun acc i =>
        let kmer := pySlice u i (i + k)
        if kmer.all (fun b => b ∈ dnaBases) then pySetInsert acc kmer else acc)
      []
    let observed := kmers.length
    let possible := min (4 ^ k) (u.length - k + 1)
    if 0 < possible then (observed : ℚ) / (possible : ℚ) else 0

/-- One window dict appended to high_gc or low_gc by find_gc_extremes. -/
structure GcWindow where
  start : Nat
  stop : Nat
  gc : ℚ
deriving DecidableEq

/-- The value stored under the keys high_gc_regions and low_gc_regions of
the find_gc_extremes result: an integer count on the long-sequence branch
but a (always empty) list on the short-sequence branch. This dynamic
typing is the source of the TypeError analysed below. -/
inductive GcCountVal where
  | int : Nat → GcCountVal
  | list : List GcWindow → GcCountVal
deriving DecidableEq

/-- The result dict of find_gc_extremes. The short-sequence branch of the
source omits the two positions keys; they are modelled as empty lists,
and no downstream consumer reads them. -/
structure GcExtremes where
  high_gc_regions : GcCountVal
  low_gc_regions : GcCountVal
  gc_range : ℚ
  high_gc_positions : List GcWindow
  low_gc_positions : List GcWindow
deriving DecidableEq

/-- Python range(0, stop, step) for positive step: the multiples of step
below stop. -/
def pyRangeStep (stop step : Nat) : List Nat :=
  (List.range ((stop + step - 1) / step)).map (fun j => j * step)

/-- Python max over a nonempty list of rationals (callers guard emptiness;
the 0 default of the empty case is never reached from the source). -/
def listMaxQ : List ℚ → ℚ
  | [] => 0
  | x :: xs => xs.foldl max x

/-- Python min over a nonempty list of rationals (callers guard emptiness). -/
def listMinQ : List ℚ → ℚ
  | [] => 0
  | x :: xs => xs.foldl min x

/-- find_gc_extremes of seq_qc.py (window_size defaults to 50): a sequence
shorter than the window returns the degenerate dict with empty lists under
the count keys, otherwise half-overlapping windows are classified as high
(gc above 0.70) or low (gc below 0.30) and non-overlapping windows give
the gc range. -/
def find_gc_extremes (sequence : List Char) (window_size : Nat := 50) : GcExtremes :=
  if sequence.length < window_size then
    { high_gc_regions := GcCountVal.list [], low_gc_regions := GcCountVal.list [],
      gc_range := 0, high_gc_positions := [], low_gc_positions := [] }
  else
    let u := sequence.map Char.toUpper
    let windows := (pyRangeStep (u.length - window_size + 1) (window_size / 2)).map
      (fun i =>
        let w := pySlice u i (i + window_size)
        (i, ((w.count 'G' + w.count 'C' : Nat) : ℚ) / (w.length : ℚ)))
    let high_gc := (windows.filter (fun p => decide ((7 : ℚ)/10 < p.2))).map
      (fun p => GcWindow.mk p.1 (p.1 + window_size) p.2)
    let low_gc := (windows.filter
        (fun p => decide (¬ (7 : ℚ)/10 < p.2) && decide (p.2 < (3 : ℚ)/10))).map
      (fun p => GcWindow.mk p.1 (p.1 + window_size) p.2)
    let gc_values := (pyRangeStep (u.length - window_size + 1) window_size).map
      (fun i =>
        let w := pySlice u i (i + window_size)
        ((w.count 'G' + w.count 'C' : Nat) : ℚ) / (w.length : ℚ))
    let gc_range := if gc_values = [] then 0 else listMaxQ gc_values - listMinQ gc_values
    { high_gc_regions := GcCountVal.int high_gc.length,
      low_gc_regions := GcCountVal.int low_gc.length,
      gc_range := gc_range,
      high_gc_positions := high_gc.take 10,
      low_gc_positions := low_gc.take 10 }

/-- The complement dict of find_hairpins, with N for non-ACGT symbols. -/
def complementChar (b : Char) : Char :=
  if b = 'A' then 'T'
  else if b = 'T' then 'A'
  else if b = 'G' then 'C'
  else if b = 'C' then 'G'
  else 'N'

/-- find_hairpins of seq_qc.py (stem_min 6, loop_min 3, loop_max 8): for
each start position, at most one hairpin is counted, at the first loop
size whose downstream window is the reverse complement of the stem; the
break when the window leaves the sequence is equivalent to the bounds
check, since the window start only grows with the loop size. -/
def find_hairpins (sequence : List Char) (stem_min : Nat := 6) (loop_min : Nat := 3)
    (loop_max : Nat := 8) : Nat :=
  let u := sequence.map Char.toUpper
  ((List.range (u.length - stem_min * 2 - loop_min)).filter
    (fun i =>
      let stem := pySlice u i (i + stem_min)
      let complement_stem := (stem.map complementChar).reverse
      (List.range' loop_min (loop_max + 1 - loop_min)).any
        (fun loop_size =>
          let j := i + stem_min + loop_size
          decide (j + stem_min ≤ u.length) &&
            decide (pySlice u j (j + stem_min) = complement_stem)))).length

/-- The tagged reason messages appended by calculate_synthesis_risk, one
constructor per f-string, carrying the interpolated value. -/
inductive Reason where
  | highGC (gc : ℚ)
  | lowGC (gc : ℚ)
  | longHomopolymer (bp : Nat)
  | moderateHomopolymer (bp : Nat)
  | highRepeat (fraction : ℚ)
  | moderateRepeat (fraction : ℚ)
  | manyGcExtremes (count : Nat)
  | manyHairpins (count : Nat)
deriving DecidableEq

/-- Python + on the dynamically typed gc-extreme counts: integers add,
lists concatenate, and mixing the two raises TypeError (none). -/
def pyAddGcCount : GcCountVal → GcCountVal → Option GcCountVal
  | GcCountVal.int a, GcCountVal.int b => some (GcCountVal.int (a + b))
  | GcCountVal.list a, GcCountVal.list b => some (GcCountVal.list (a ++ b))
  | _, _ => none

set_option linter.unusedVariables false in
/-- calculate_synthesis_risk of seq_qc.py: the weighted penalties are
accumulated in evaluation order; the comparison extreme_count > 5 raises
TypeError (none) when extreme_count is a list, which happens exactly when
find_gc_extremes took its short-sequence branch. The length parameter is
passed but unused, as in the source. -/
def calculate_synthesis_risk (gc_content : ℚ) (homopolymers : Homopolymers)
    (repeats : TandemRepeats) (gc_extremes : GcExtremes) (hairpins : Nat)
    (length : Nat) : Option (ℚ × List Reason) :=
  let acc : ℚ × List Reason := (0, [])
  let acc := if (13 : ℚ)/20 < gc_content then
      (acc.1 + 3/20, acc.2 ++ [Reason.highGC gc_content])
    else if gc_content < (7 : ℚ)/20 then
      (acc.1 + 3/20, acc.2 ++ [Reason.lowGC gc_content])
    else acc
  let acc := if 8 ≤ homopolymers.max_length then
      (acc.1 + 1/4, acc.2 ++ [Reason.longHomopolymer homopolymers.max_length])
    else if 6 ≤ homopolymers.max_length then
      (acc.1 + 1/10, acc.2 ++ [Reason.moderateHomopolymer homopolymers.max_length])
    else acc
  let acc := if (1 : ℚ)/10 < repeats.fraction then
      (acc.1 + 1/5, acc.2 ++ [Reason.highRepeat repeats.fraction])
    else if (1 : ℚ)/20 < repeats.fraction then
      (acc.1 + 1/10, acc.2 ++ [Reason.moderateRepeat repeats.fraction])
    else acc
  match pyAddGcCount gc_extremes.high_gc_regions gc_extremes.low_gc_regions with
  | none => none
  | some (GcCountVal.list _) => none
  | some (GcCountVal.int extreme_count) =>
    let acc := if 5 < extreme_count then
        (acc.1 + 3/20, acc.2 ++ [Reason.manyGcExtremes extreme_count])
      else acc
    let acc := if 10 < hairpins then
        (acc.1 + 3/20, acc.2 ++ [Reason.manyHairpins hairpins])
      else acc
    some (min 1 (max 0 acc.1), acc.2)

/-- The aggregate QC result assembled by main of seq_qc.py (the spec calls
it SequenceQCResult; the CLI-only sample_id is omitted). -/
structure SequenceQCResult where
  length : Nat
  gc_content : ℚ
  linguistic_complexity : ℚ
  homopolymers : Homopolymers
  tandem_repeats : TandemRepeats
  gc_extremes : GcExtremes
  hairpin_estimate : Nat
  synthesis_risk : ℚ
  synthesis_risk_reasons : List Reason
deriving DecidableEq

/-- score_sequence: the composition of all metrics exactly as main of
seq_qc.py performs it for one input sequence; none models a raised
exception. -/
def score_sequence (sequence : List Char) : Option SequenceQCResult :=
  let gc_content := calculate_gc_content sequence
  let homopolymers := find_homopolymers sequence
  let repeats := find_tandem_repeats sequence
  let complexity := calculate_linguistic_complexity sequence
  let gc_extremes := find_gc_extremes sequence
  let hairpins := find_hairpins sequence
  match calculate_synthesis_risk gc_content homopolymers repeats gc_extremes hairpins
      sequence.length with
  | none => none
  | some rr =>
    some { length := sequence.length,
           gc_content := gc_content,
           linguistic_complexity := complexity,
           homopolymers := homopolymers,
           tandem_repeats := repeats,
           gc_extremes := gc_extremes,
           hairpin_estimate := hairpins,
           synthesis_risk := rr.1,
           synthesis_risk_reasons := rr.2 }

/-- The degenerate dict returned by the short-sequence branch of
find_gc_extremes. -/
theorem find_gc_extremes_short (sequence : List Char) (h : sequence.length < 50) :
    find_gc_extremes sequence =
      { high_gc_regions := GcCountVal.list [], low_gc_regions := GcCountVal.list [],
        gc_range := 0, high_gc_positions := [], low_gc_positions := [] } := by
  unfold find_gc_extremes
  rw [if_pos h]

/-- calculate_synthesis_risk raises (none) whenever both gc-extreme count
fields hold lists, because the comparison with the integer 5 is a Python
TypeError. -/
theorem calculate_synthesis_risk_list_none (gc : ℚ) (h : Homopolymers)
    (r : TandemRepeats) (w₁ w₂ : List GcWindow) (g : ℚ) (p₁ p₂ : List GcWindow)
    (hp : Nat) (len : Nat) :
    calculate_synthesis_risk gc h r
      { high_gc_regions := GcCountVal.list w₁, low_gc_regions := GcCountVal.list w₂,
        gc_range := g, high_gc_positions := p₁, low_gc_positions := p₂ } hp len = none := by
  simp only [calculate_synthesis_risk, pyAddGcCount]

/-- C1: the spec demands that score_sequence never raises and returns a
zero/empty default result on degenerate inputs, in particular on any
sequence shorter than the 50-base gc window; the code instead raises a
TypeError for every such sequence, because the short-sequence branch of
find_gc_extremes stores empty lists under the high_gc_regions and
low_gc_regions keys where the long branch stores integer counts, and
calculate_synthesis_risk then evaluates the list-plus-list sum against
the integer 5. This theorem evaluates the code on the failing inputs:
every sequence shorter than the window makes score_sequence raise. -/
theorem score_sequence_raises_below_window (sequence : List Char)
    (h : sequence.length < 50) : score_sequence sequence = none := by
  unfold score_sequence
  rw [find_gc_extremes_short sequence h]
  simp only [calculate_synthesis_risk_list_none]

/-- C1 witness: the four-base sequence ACGT is shorter than the window and
score_sequence raises on it. -/
theorem score_sequence_raises_below_window_witness :
    (['A', 'C', 'G', 'T'] : List Char).length < 50 ∧
      score_sequence ['A', 'C', 'G', 'T'] = none :=
  ⟨by decide, score_sequence_raises_below_window ['A', 'C', 'G', 'T'] (by decide)⟩

/-- C3 counterexample: score_sequence on the empty sequence does not return
the claimed record with gc_content 0, synthesis_risk 0 and empty reasons;
it raises (none), via the list-typed gc-extreme counts of the
short-sequence branch. -/
theorem score_sequence_empty_counterexample : score_sequence [] = none := rfl

/-- C3 amended: on the empty sequence the individual metrics do give
gc_content 0 and homopolymer max_length 0, but score_sequence as composed
raises rather than returning a result; and even calculate_synthesis_risk
applied to the zero/empty metrics of the empty sequence (with the
integer-typed zero gc-extreme counts the long branch would produce)
returns risk 0.15 with the low-gc-content reason, not 0 with no reasons,
because gc_content 0 trips the low-GC penalty. -/
theorem score_sequence_empty_amended :
    calculate_gc_content [] = 0
  ∧ (find_homopolymers []).max_length = 0
  ∧ score_sequence [] = none
  ∧ calculate_synthesis_risk (calculate_gc_content []) (find_homopolymers [])
      (find_tandem_repeats [])
      { high_gc_regions := GcCountVal.int 0, low_gc_regions := GcCountVal.int 0,
        gc_range := 0, high_gc_positions := [], low_gc_positions := [] }
      (find_hairpins []) 0
      = some (3/20, [Reason.lowGC 0]) := by
  refine ⟨rfl, by decide, rfl, ?_⟩
  have hgc : calculate_gc_content [] = 0 := rfl
  have hm : (find_homopolymers []).max_length = 0 := by decide
  have hf : (find_tandem_repeats []).fraction = 0 := rfl
  have hh : find_hairpins [] = 0 := by decide
  rw [hgc, hh]
  simp only [calculate_synthesis_risk, hm, hf, pyAddGcCount]
  norm_num

/-- C4 counterexample: score_sequence on ten G characters does not yield
the claimed metrics; being shorter than the gc window it raises (none),
and moreover its tandem-repeat content is not zero: a ten-base homopolymer
contains repeats of unit lengths 2 and 3. -/
theorem score_sequence_polyG_counterexample :
    score_sequence (List.replicate 10 'G') = none
  ∧ 0 < (find_tandem_repeats (List.replicate 10 'G')).count :=
  ⟨rfl, by decide⟩

/-- C4 amended: for the ten-G sequence, gc_content is 1 and the single
homopolymer has length 10 as claimed, but score_sequence as composed
raises (short-sequence TypeError); and the tandem-repeat scan reports the
GG unit with five copies and the GGG unit with three copies (19 repeat
bases, fraction 1.9), so calculate_synthesis_risk on these metrics (with
integer-typed zero gc-extreme counts) yields 0.60 — the high-GC 0.15,
long-homopolymer 0.25 and high-repeat 0.20 penalties — not 0.40. -/
theorem score_sequence_polyG_amended :
    calculate_gc_content (List.replicate 10 'G') = 1
  ∧ (find_homopolymers (List.replicate 10 'G')).max_length = 10
  ∧ (find_homopolymers (List.replicate 10 'G')).count = 1
  ∧ (find_tandem_repeats (List.replicate 10 'G')).total_bases = 19
  ∧ score_sequence (List.replicate 10 'G') = none
  ∧ calculate_synthesis_risk (calculate_gc_content (List.replicate 10 'G'))
      (find_homopolymers (List.replicate 10 'G'))
      (find_tandem_repeats (List.replicate 10 'G'))
      { high_gc_regions := GcCountVal.int 0, low_gc_regions := GcCountVal.int 0,
        gc_range := 0, high_gc_positions := [], low_gc_positions := [] }
      (find_hairpins (List.replicate 10 'G')) 10
      = some (3/5, [Reason.highGC 1, Reason.longHomopolymer 10,
                    Reason.highRepeat (19/10)]) := by
  have hgc : calculate_gc_content (List.replicate 10 'G') = 1 := by
    rw [show calculate_gc_content (List.replicate 10 'G')
        = ((10 : Nat) : ℚ) / ((10 : Nat) : ℚ) from rfl]
    norm_num
  have hm : (find_homopolymers (List.replicate 10 'G')).max_length = 10 := by decide
  have hf : (find_tandem_repeats (List.replicate 10 'G')).fraction = 19/10 := by
    rw [show (find_tandem_repeats (List.replicate 10 'G')).fraction
        = ((19 : Nat) : ℚ) / ((10 : Nat) : ℚ) from rfl]
    norm_num
  have hh : find_hairpins (List.replicate 10 'G') = 0 := by decide
  refine ⟨hgc, hm, by decide, by decide, rfl, ?_⟩
  rw [hgc, hh]
  simp only [calculate_synthesis_risk, hm, hf, pyAddGcCount]
  norm_num

/-- C6 counterexample: on the twelve-base sequence ACACACACACAC the
reported repeats (unit AC with six copies and unit ACAC with three copies)
overlap completely, their lengths are summed without deduplication, and
the fraction field is 24 / 12 = 2, exceeding 1. -/
theorem tandem_fraction_counterexample :
    1 < (find_tandem_repeats
          ['A','C','A','C','A','C','A','C','A','C','A','C']).fraction
  ∧ (find_tandem_repeats
        ['A','C','A','C','A','C','A','C','A','C','A','C']).fraction = 2 := by
  have h : (find_tandem_repeats
        ['A','C','A','C','A','C','A','C','A','C','A','C']).fraction
      = ((24 : Nat) : ℚ) / ((12 : Nat) : ℚ) := rfl
  rw [h]
  norm_num

/-- C6 amended: the fraction field equals total_bases — the sum of the
total lengths of all reported repeats, which counts a position once per
unit length that matches it — divided by the sequence length (0 for the
empty sequence); it is nonnegative but may exceed 1 when repeats of
different unit lengths overlap. -/
theorem tandem_fraction_amended (sequence : List Char) :
    (find_tandem_repeats sequence).fraction =
      (if sequence = [] then 0
       else ((find_tandem_repeats sequence).total_bases : ℚ) / (sequence.length : ℚ))
  ∧ 0 ≤ (find_tandem_repeats sequence).fraction := by
  constructor
  · rfl
  · unfold find_tandem_repeats
    dsimp only
    split
    · exact le_refl 0
    · positivity

/-- C5 counterexample: with a nonempty sequence and no features at all,
the method tag returned by the partitioner is pk_no_backbone, not the
no_backbone of the claim. -/
theorem no_backbone_tag_counterexample :
    (identify_insert_regions_pk (List.replicate 5 'A') []).2.2 = ("pk_no_backbone")
  ∧ (identify_insert_regions_pk (List.replicate 5 'A') []).2.2 ≠ ("no_backbone") :=
  ⟨rfl, by decide⟩

/-- C5 amended: for every nonempty sequence whose feature list contains no
backbone-typed feature (rep_origin, marker, promoter, terminator), the
partitioner returns no insert regions, confidence 0, and the method tag
pk_no_backbone (the empty sequence instead gets the tag pk_empty). -/
theorem no_backbone_amended (sequence : List Char) (pk_features : List Feature)
    (hs : sequence ≠ []) (hb : pk_features.filter is_backbone_feature = []) :
    identify_insert_regions_pk sequence pk_features = ([], 0, "pk_no_backbone") := by
  have h0 : ¬ (sequence.length = 0) := by
    simpa [List.length_eq_zero] using hs
  unfold identify_insert_regions_pk
  rw [if_neg h0]
  simp only [hb, if_pos]

/-- C5 witness: a one-base sequence with a single CDS-typed feature has no
backbone features, and the partitioner answers with the pk_no_backbone
tag. -/
theorem no_backbone_amended_witness :
    (['A'] : List Char) ≠ []
  ∧ ([Feature.mk (some ("CDS")) 0 1].filter is_backbone_feature = [])
  ∧ identify_insert_regions_pk ['A'] [Feature.mk (some ("CDS")) 0 1]
      = ([], 0, "pk_no_backbone") :=
  ⟨by decide, by decide, no_backbone_amended _ _ (by decide) (by decide)⟩

/-- C10: for every nonempty sequence whose feature list contains at least
one backbone-typed feature, the partitioner returns confidence 0.8 and
the method tag plasmid_kit_gap, regardless of whether any insert region
was found. -/
theorem backbone_confidence_and_tag (sequence : List Char) (pk_features : List Feature)
    (hs : sequence ≠ []) (hb : pk_features.filter is_backbone_feature ≠ []) :
    (identify_insert_regions_pk sequence pk_features).2.1 = 4/5
  ∧ (identify_insert_regions_pk sequence pk_features).2.2 = ("plasmid_kit_gap") := by
  have h0 : ¬ (sequence.length = 0) := by
    simpa [List.length_eq_zero] using hs
  have h2 : (identify_insert_regions_pk sequence pk_features).2
      = (4/5, ("plasmid_kit_gap")) := by
    unfold identify_insert_regions_pk
    rw [if_neg h0]
    dsimp only
    rw [if_neg hb]
  exact ⟨by rw [h2], by rw [h2]⟩

/-- C10 witness: a ten-base sequence fully covered by one rep_origin
feature has backbone evidence but no gap, and still gets confidence 0.8
and the plasmid_kit_gap tag, with an empty insert list. -/
theorem backbone_confidence_and_tag_witness :
    (List.replicate 10 'A' : List Char) ≠ []
  ∧ ([Feature.mk (some ("rep_origin")) 0 10].filter is_backbone_feature ≠ [])
  ∧ ((identify_insert_regions_pk (List.replicate 10 'A')
        [Feature.mk (some ("rep_origin")) 0 10]).2.1 = 4/5
     ∧ (identify_insert_regions_pk (List.replicate 10 'A')
          [Feature.mk (some ("rep_origin")) 0 10]).2.2 = ("plasmid_kit_gap"))
  ∧ (identify_insert_regions_pk (List.replicate 10 'A')
        [Feature.mk (some ("rep_origin")) 0 10]).1 = [] :=
  ⟨by decide, by decide,
    backbone_confidence_and_tag _ _ (by decide) (by decide), rfl⟩

/-- setTrueRange never changes the length of the mask. -/
theorem setTrueRange_length : ∀ (n : Nat) (l : List Bool) (s : Nat),
    (setTrueRange l s n).length = l.length := by
  intro n
  induction n with
  | zero => intro l s; rfl
  | succ n ih =>
    intro l s
    show (setTrueRange (l.set s true) (s + 1) n).length = l.length
    rw [ih, List.length_set]

/-- A fold whose step preserves list length preserves list length. -/
theorem foldl_mask_length (step : List Bool → Feature → List Bool)
    (hstep : ∀ m f, (step m f).length = m.length) :
    ∀ (fs : List Feature) (m : List Bool), (fs.foldl step m).length = m.length := by
  intro fs
  induction fs with
  | nil => intro m; rfl
  | cons f fs ih =>
    intro m
    rw [List.foldl_cons, ih, hstep]

/-- The backbone coverage mask has the length of the sequence. -/
theorem buildBackboneMask_length (seq_len : Nat) (fs : List Feature) :
    (buildBackboneMask seq_len fs).length = seq_len := by
  unfold buildBackboneMask
  rw [foldl_mask_length _ (fun m f => setTrueRange_length _ _ _), List.length_replicate]

/-- A region chain between lo and hi forces lo at most hi. -/
theorem regionChain_le : ∀ {rs : List InsertRegion} {lo hi : Nat},
    regionChain lo rs hi → lo ≤ hi := by
  intro rs
  induction rs with
  | nil => intro lo hi h; exact h
  | cons r rs ih =>
    intro lo hi h
    obtain ⟨h1, h2, _, h4⟩ := h
    exact le_trans (le_trans h1 (le_of_lt h2)) (ih h4)

/-- A region chain can be restated from any smaller lower bound. -/
theorem regionChain_mono : ∀ {rs : List InsertRegion} {lo lo' hi : Nat},
    lo' ≤ lo → regionChain lo rs hi → regionChain lo' rs hi := by
  intro rs
  cases rs with
  | nil => intro lo lo' hi h hc; exact le_trans h hc
  | cons r rs =>
    intro lo lo' hi h hc
    obtain ⟨h1, hrest⟩ := hc
    exact ⟨le_trans h h1, hrest⟩

/-- Every member of a region chain is a nonempty region within the chain
bounds whose length field matches its endpoints. -/
theorem regionChain_bounds : ∀ {rs : List InsertRegion} {lo hi : Nat},
    regionChain lo rs hi → ∀ r ∈ rs,
      lo ≤ r.start ∧ r.start < r.stop ∧ r.stop ≤ hi ∧ r.length = r.stop - r.start := by
  intro rs
  induction rs with
  | nil => intro lo hi _ r hr; cases hr
  | cons x xs ih =>
    intro lo hi h r hr
    obtain ⟨h1, h2, h3, h4⟩ := h
    rcases List.mem_cons.mp hr with rfl | hr
    · exact ⟨h1, h2, regionChain_le h4, h3⟩
    · obtain ⟨b1, b2, b3, b4⟩ := ih h4 r hr
      exact ⟨le_trans (le_trans h1 (le_of_lt h2)) b1, b2, b3, b4⟩

/-- The members of a region chain are pairwise ordered: an earlier region
ends before a later one starts (and hence also starts no later). -/
theorem regionChain_pairwise : ∀ {rs : List InsertRegion} {lo hi : Nat},
    regionChain lo rs hi →
      rs.Pairwise (fun a b => a.stop ≤ b.start ∧ a.start ≤ b.start) := by
  intro rs
  induction rs with
  | nil => intro lo hi _; exact List.Pairwise.nil
  | cons x xs ih =>
    intro lo hi h
    obtain ⟨h1, h2, h3, h4⟩ := h
    refine List.Pairwise.cons ?_ (ih h4)
    intro b hb
    have := (regionChain_bounds h4 b hb).1
    exact ⟨this, by omega⟩

/-- The gap scan yields a region chain: starting from absolute position i
with open-run start cur (strictly before i when present), the returned
regions lie sorted and disjoint between the run start (or i) and the end
of the mask. -/
theorem findGapRuns_chain : ∀ (mask : List Bool) (i : Nat) (cur : Option Nat) (g : Nat),
    (∀ s, cur = some s → s < i) →
    regionChain (cur.getD i) (findGapRuns mask i cur g) (i + mask.length) := by
  intro mask
  induction mask with
  | nil =>
    intro i cur g hcur
    cases cur with
    | none =>
      show regionChain i [] (i + 0)
      show i ≤ i + 0
      omega
    | some s =>
      have hs : s < i := hcur s rfl
      show regionChain s (if g ≤ i - s then [mkGapRegion s i] else []) (i + 0)
      split
      · exact ⟨le_refl s, hs, rfl, by show i ≤ i + 0; omega⟩
      · show s ≤ i + 0
        omega
  | cons b rest ih =>
    intro i cur g hcur
    cases b with
    | true =>
      have tail := ih (i + 1) none g (by intro s h; cases h)
      have heq : (i + 1) + rest.length = i + (rest.length + 1) := by omega
      rw [heq] at tail
      simp only [Option.getD_none] at tail
      cases cur with
      | none =>
        show regionChain i (findGapRuns rest (i + 1) none g) (i + (rest.length + 1))
        exact regionChain_mono (by omega) tail
      | some s =>
        have hs : s < i := hcur s rfl
        show regionChain s
          ((if g ≤ i - s then [mkGapRegion s i] else []) ++ findGapRuns rest (i + 1) none g)
          (i + (rest.length + 1))
        split
        · exact ⟨le_refl s, hs, rfl, regionChain_mono (by show i ≤ i + 1; omega) tail⟩
        · exact regionChain_mono (by omega) tail
    | false =>
      cases cur with
      | none =>
        show regionChain i (findGapRuns rest (i + 1) (some i) g) (i + (rest.length + 1))
        have tail := ih (i + 1) (some i) g (by intro s h; injection h with h1; omega)
        have heq : (i + 1) + rest.length = i + (rest.length + 1) := by omega
        rw [heq] at tail
        simpa only [Option.getD_some] using tail
      | some s =>
        have hs : s < i := hcur s rfl
        show regionChain s (findGapRuns rest (i + 1) (some s) g) (i + (rest.length + 1))
        have tail := ih (i + 1) (some s) g (by intro s' h; injection h with h1; omega)
        have heq : (i + 1) + rest.length = i + (rest.length + 1) := by omega
        rw [heq] at tail
        simpa only [Option.getD_some] using tail

/-- Special case of the scan invariant: from position 0 with no open run,
the regions form a chain over the whole mask. -/
theorem findGapRuns_chain_zero (mask : List Bool) (g : Nat) :
    regionChain 0 (findGapRuns mask 0 none g) mask.length := by
  have h := findGapRuns_chain mask 0 none g (by intro s h; cases h)
  simpa using h

/-- The insert regions returned by the partitioner always form a region
chain over the sequence. -/
theorem identify_chain (sequence : List Char) (pk_features : List Feature) :
    regionChain 0 (identify_insert_regions_pk sequence pk_features).1 sequence.length := by
  unfold identify_insert_regions_pk
  by_cases h0 : sequence.length = 0
  · rw [if_pos h0]
    exact Nat.zero_le _
  · rw [if_neg h0]
    dsimp only
    by_cases hb : pk_features.filter is_backbone_feature = []
    · rw [if_pos hb]
      exact Nat.zero_le _
    · rw [if_neg hb]
      have key : ∀ M : List Bool, M.length = sequence.length →
          regionChain 0 (findGapRuns M 0 none 300) sequence.length := by
        intro M hM
        have h := findGapRuns_chain_zero M 300
        rwa [hM] at h
      exact key _ (buildBackboneMask_length _ _)

/-- A stable insertion sort leaves an already sorted list unchanged. -/
theorem insertionSortBy_sorted_id {α : Type} (le : α → α → Bool) :
    ∀ l : List α, l.Pairwise (fun a b => le a b = true) → insertionSortBy le l = l := by
  intro l
  induction l with
  | nil => intro _; rfl
  | cons x xs ih =>
    intro h
    obtain ⟨hx, hxs⟩ := List.pairwise_cons.mp h
    show insertSorted le x (insertionSortBy le xs) = x :: xs
    rw [ih hxs]
    cases xs with
    | nil => rfl
    | cons y ys =>
      show (if le x y then x :: y :: ys else y :: insertSorted le x ys) = x :: y :: ys
      rw [hx y (List.mem_cons_self y ys), if_pos rfl]

/-- One-step unfolding of compGaps. -/
theorem compGaps_cons (c : Nat) (r : InsertRegion) (rs : List InsertRegion) :
    compGaps c (r :: rs)
      = ((if c < r.start then
          [{ start := c, stop := r.start, length := r.start - c, type := "backbone" }]
        else []) ++ (compGaps (max c r.stop) rs).1, (compGaps (max c r.stop) rs).2) := rfl

/-- The cursor fold of calculate_backbone_regions computes compGaps. -/
theorem foldl_backboneStep_eq : ∀ (rs : List InsertRegion) (acc : List BackboneRegion)
    (c : Nat),
    rs.foldl backboneStep (acc, c) = (acc ++ (compGaps c rs).1, (compGaps c rs).2) := by
  intro rs
  induction rs with
  | nil => intro acc c; simp [compGaps]
  | cons r rs ih =>
    intro acc c
    rw [List.foldl_cons]
    have hstep : backboneStep (acc, c) r
        = ((if c < r.start then
            acc ++ [{ start := c, stop := r.start, length := r.start - c, type := "backbone" }]
          else acc), max c r.stop) := rfl
    rw [hstep]
    by_cases hc : c < r.start
    · rw [if_pos hc, ih, compGaps_cons, if_pos hc]
      dsimp only
      rw [List.append_assoc]
    · rw [if_neg hc, ih, compGaps_cons, if_neg hc]
      dsimp only
      rw [List.nil_append]

/-- On a (pre)sorted region list and nonzero length, the source function
calculate_backbone_regions computes the recursive complement bbFull. -/
theorem calculate_backbone_eq_bbFull (L : Nat) (hL : ¬ (L = 0)) (rs : List InsertRegion)
    (hs : rs.Pairwise (fun a b => decide (a.start ≤ b.start) = true)) :
    calculate_backbone_regions L rs = bbFull L 0 rs := by
  unfold calculate_backbone_regions
  rw [if_neg hL]
  dsimp only
  rw [insertionSortBy_sorted_id _ rs hs, foldl_backboneStep_eq rs [] 0]
  unfold bbFull
  dsimp only
  by_cases hc : (compGaps 0 rs).2 < L
  · rw [if_pos hc, if_pos hc, List.nil_append]
  · rw [if_neg hc, if_neg hc, List.nil_append, List.append_nil]

/-- Unfolding bbFull one region at a time, under the chain hypothesis that
the cursor is at most the region end. -/
theorem bbFull_cons (L c : Nat) (r : InsertRegion) (rs : List InsertRegion)
    (hmax : c ≤ r.stop) :
    bbFull L c (r :: rs) =
      (if c < r.start then
        [{ start := c, stop := r.start, length := r.start - c, type := "backbone" }]
      else []) ++ bbFull L r.stop rs := by
  unfold bbFull
  rw [compGaps_cons, max_eq_right hmax]
  dsimp only
  rw [List.append_assoc]

/-- A backbone chain between lo and hi forces lo at most hi. -/
theorem bbChain_le : ∀ {bs : List BackboneRegion} {lo hi : Nat},
    bbChain lo bs hi → lo ≤ hi := by
  intro bs
  induction bs with
  | nil => intro lo hi h; exact h
  | cons b bs ih =>
    intro lo hi h
    obtain ⟨h1, h2, _, h4⟩ := h
    exact le_trans (le_trans h1 (le_of_lt h2)) (ih h4)

/-- A backbone chain can be restated from any smaller lower bound. -/
theorem bbChain_mono : ∀ {bs : List BackboneRegion} {lo lo' hi : Nat},
    lo' ≤ lo → bbChain lo bs hi → bbChain lo' bs hi := by
  intro bs
  cases bs with
  | nil => intro lo lo' hi h hc; exact le_trans h hc
  | cons b bs =>
    intro lo lo' hi h hc
    obtain ⟨h1, hrest⟩ := hc
    exact ⟨le_trans h h1, hrest⟩

/-- Every member of a backbone chain lies within the chain bounds. -/
theorem bbChain_bounds : ∀ {bs : List BackboneRegion} {lo hi : Nat},
    bbChain lo bs hi → ∀ b ∈ bs,
      lo ≤ b.start ∧ b.start < b.stop ∧ b.stop ≤ hi := by
  intro bs
  induction bs with
  | nil => intro lo hi _ b hb; cases hb
  | cons x xs ih =>
    intro lo hi h b hb
    obtain ⟨h1, h2, h3, h4⟩ := h
    rcases List.mem_cons.mp hb with rfl | hb
    · exact ⟨h1, h2, bbChain_le h4⟩
    · obtain ⟨b1, b2, b3⟩ := ih h4 b hb
      exact ⟨le_trans (le_trans h1 (le_of_lt h2)) b1, b2, b3⟩

/-- The members of a backbone chain are pairwise ordered. -/
theorem bbChain_pairwise : ∀ {bs : List BackboneRegion} {lo hi : Nat},
    bbChain lo bs hi → bs.Pairwise (fun a b => a.stop ≤ b.start) := by
  intro bs
  induction bs with
  | nil => intro lo hi _; exact List.Pairwise.nil
  | cons x xs ih =>
    intro lo hi h
    obtain ⟨h1, h2, h3, h4⟩ := h
    refine List.Pairwise.cons ?_ (ih h4)
    intro b hb
    exact (bbChain_bounds h4 b hb).1

/-- Length bookkeeping of the complement: insert lengths plus backbone
lengths fill the span from the cursor to the sequence end. -/
theorem bbFull_sum : ∀ (rs : List InsertRegion) (c : Nat) {L : Nat},
    regionChain c rs L →
    ((rs.map fun r => r.length).sum + ((bbFull L c rs).map fun b => b.length).sum)
      = L - c := by
  intro rs
  induction rs with
  | nil =>
    intro c L h
    have hc' : c ≤ L := h
    unfold bbFull compGaps
    dsimp only
    by_cases hc : c < L
    · rw [if_pos hc]
      simp
    · rw [if_neg hc]
      simp
      omega
  | cons r rs ih =>
    intro c L h
    obtain ⟨h1, h2, h3, h4⟩ := h
    have hstop : r.stop ≤ L := regionChain_le h4
    have hih := ih r.stop h4
    rw [bbFull_cons L c r rs (by omega)]
    by_cases hc : c < r.start
    · rw [if_pos hc]
      rw [List.map_cons, List.sum_cons, List.map_append, List.sum_append]
      simp only [List.map_cons, List.map_nil, List.sum_cons, List.sum_nil]
      omega
    · rw [if_neg hc]
      rw [List.map_cons, List.sum_cons, List.nil_append]
      omega

/-- Membership characterisation of the complement: a position is covered
by a backbone region exactly when it lies between the cursor and the
sequence end and no insert region covers it. -/
theorem bbFull_mem : ∀ (rs : List InsertRegion) (c : Nat) {L : Nat},
    regionChain c rs L → ∀ p : Nat,
    ((∃ b ∈ bbFull L c rs, b.start ≤ p ∧ p < b.stop) ↔
      (c ≤ p ∧ p < L ∧ ∀ r ∈ rs, ¬ (r.start ≤ p ∧ p < r.stop))) := by
  intro rs
  induction rs with
  | nil =>
    intro c L h p
    have hc' : c ≤ L := h
    unfold bbFull compGaps
    dsimp only
    by_cases hc : c < L
    · rw [if_pos hc]
      simp only [List.nil_append, List.mem_singleton, List.not_mem_nil, false_implies,
        implies_true, and_true]
      constructor
      · rintro ⟨b, rfl, hbp⟩
        exact ⟨hbp.1, hbp.2⟩
      · intro hp
        exact ⟨_, rfl, hp.1, hp.2⟩
    · rw [if_neg hc]
      simp only [List.append_nil, List.not_mem_nil, false_and, exists_false, false_iff,
        not_and]
      intro hcp hpL
      omega
  | cons r rs ih =>
    intro c L h p
    obtain ⟨h1, h2, h3, h4⟩ := h
    have hstop : r.stop ≤ L := regionChain_le h4
    have hbnd := regionChain_bounds h4
    have hih := ih r.stop h4 p
    rw [bbFull_cons L c r rs (by omega)]
    constructor
    · rintro ⟨b, hb, hbp⟩
      rcases List.mem_append.mp hb with hhead | htail
      · by_cases hc : c < r.start
        · rw [if_pos hc] at hhead
          rw [List.mem_singleton] at hhead
          subst hhead
          dsimp only at hbp
          refine ⟨hbp.1, by omega, ?_⟩
          intro x hx
          rcases List.mem_cons.mp hx with rfl | hx
          · omega
          · have := (hbnd x hx).1
            omega
        · rw [if_neg hc] at hhead
          cases hhead
      · obtain ⟨hp1, hp2, hp3⟩ := hih.mp ⟨b, htail, hbp⟩
        refine ⟨by omega, hp2, ?_⟩
        intro x hx
        rcases List.mem_cons.mp hx with rfl | hx
        · omega
        · exact hp3 x hx
    · rintro ⟨hp1, hp2, hp3⟩
      have hnr := hp3 r (List.mem_cons_self r rs)
      by_cases hpr : p < r.start
      · have hc : c < r.start := by omega
        refine ⟨{ start := c, stop := r.start, length := r.start - c, type := "backbone" },
          List.mem_append.mpr (Or.inl ?_), ?_⟩
        · rw [if_pos hc]
          exact List.mem_singleton.mpr rfl
        · exact ⟨hp1, hpr⟩
      · have hge : r.stop ≤ p := by omega
        obtain ⟨b, hmem, hcov⟩ := hih.mpr
          ⟨hge, hp2, fun x hx => hp3 x (List.mem_cons_of_mem r hx)⟩
        exact ⟨b, List.mem_append.mpr (Or.inr hmem), hcov⟩

/-- The complement of a region chain is itself a backbone chain over the
same span. -/
theorem bbFull_chain : ∀ (rs : List InsertRegion) (c : Nat) {L : Nat},
    regionChain c rs L → bbChain c (bbFull L c rs) L := by
  intro rs
  induction rs with
  | nil =>
    intro c L h
    have hc' : c ≤ L := h
    unfold bbFull compGaps
    dsimp only
    by_cases hc : c < L
    · rw [if_pos hc]
      exact ⟨le_refl c, hc, rfl, le_refl L⟩
    · rw [if_neg hc]
      exact hc'
  | cons r rs ih =>
    intro c L h
    obtain ⟨h1, h2, h3, h4⟩ := h
    have htail := ih r.stop h4
    rw [bbFull_cons L c r rs (by omega)]
    by_cases hc : c < r.start
    · rw [if_pos hc]
      exact ⟨le_refl c, hc, rfl, bbChain_mono (by show r.start ≤ r.stop; omega) htail⟩
    · rw [if_neg hc]
      exact bbChain_mono (by omega) htail

/-- C2: for every sequence and feature list, the insert regions returned
by the partitioner and the backbone regions computed as their complement
have lengths summing to the sequence length, jointly cover exactly the
positions below the sequence length, and are pairwise non-overlapping. -/
theorem partition_exact_cover (sequence : List Char) (pk_features : List Feature) :
    (((identify_insert_regions_pk sequence pk_features).1.map fun r => r.length).sum
      + ((calculate_backbone_regions sequence.length
            (identify_insert_regions_pk sequence pk_features).1).map fun b => b.length).sum
      = sequence.length)
  ∧ (∀ p : Nat, p < sequence.length ↔
      ((∃ r ∈ (identify_insert_regions_pk sequence pk_features).1,
          r.start ≤ p ∧ p < r.stop)
       ∨ (∃ b ∈ calculate_backbone_regions sequence.length
            (identify_insert_regions_pk sequence pk_features).1,
          b.start ≤ p ∧ p < b.stop)))
  ∧ (((identify_insert_regions_pk sequence pk_features).1.map fun r => (r.start, r.stop))
      ++ ((calculate_backbone_regions sequence.length
            (identify_insert_regions_pk sequence pk_features).1).map
          fun b => (b.start, b.stop))).Pairwise
      (fun a b => ∀ p : Nat, ¬ ((a.1 ≤ p ∧ p < a.2) ∧ (b.1 ≤ p ∧ p < b.2))) := by
  have hchain : regionChain 0 (identify_insert_regions_pk sequence pk_features).1
      sequence.length := identify_chain sequence pk_features
  by_cases hL0 : sequence.length = 0
  · have hinsnil : (identify_insert_regions_pk sequence pk_features).1 = [] := by
      cases hcase : (identify_insert_regions_pk sequence pk_features).1 with
      | nil => rfl
      | cons r rs =>
        rw [hcase] at hchain
        obtain ⟨a, b, _, d⟩ := hchain
        have := regionChain_le d
        omega
    have hbb : calculate_backbone_regions sequence.length
        (identify_insert_regions_pk sequence pk_features).1 = [] := by
      unfold calculate_backbone_regions
      rw [if_pos hL0]
    refine ⟨?_, ?_, ?_⟩ <;>
      simp [hinsnil, hbb, hL0, show calculate_backbone_regions 0 [] = [] from rfl]
  · have hsorted : (identify_insert_regions_pk sequence pk_features).1.Pairwise
        (fun a b => decide (a.start ≤ b.start) = true) := by
      refine (regionChain_pairwise hchain).imp ?_
      intro a b hab
      simpa using hab.2
    have hbbeq : calculate_backbone_regions sequence.length
          (identify_insert_regions_pk sequence pk_features).1
        = bbFull sequence.length 0 (identify_insert_regions_pk sequence pk_features).1 :=
      calculate_backbone_eq_bbFull sequence.length hL0 _ hsorted
    refine ⟨?_, ?_, ?_⟩
    · rw [hbbeq]
      have := bbFull_sum (identify_insert_regions_pk sequence pk_features).1 0 hchain
      omega
    · intro p
      rw [hbbeq]
      have hmem := bbFull_mem (identify_insert_regions_pk sequence pk_features).1 0 hchain p
      constructor
      · intro hp
        by_cases hin : ∃ r ∈ (identify_insert_regions_pk sequence pk_features).1,
            r.start ≤ p ∧ p < r.stop
        · exact Or.inl hin
        · refine Or.inr (hmem.mpr ⟨Nat.zero_le p, hp, ?_⟩)
          intro x hx hconj
          exact hin ⟨x, hx, hconj⟩
      · rintro (⟨r, hr, hcov⟩ | hb)
        · have := (regionChain_bounds hchain r hr).2.2.1
          omega
        · exact (hmem.mp hb).2.1
    · rw [hbbeq]
      rw [List.pairwise_append]
      refine ⟨?_, ?_, ?_⟩
      · rw [List.pairwise_map]
        refine (regionChain_pairwise hchain).imp ?_
        intro a b hab p hp
        dsimp only at hp
        omega
      · rw [List.pairwise_map]
        refine (bbChain_pairwise (bbFull_chain _ 0 hchain)).imp ?_
        intro a b hab p hp
        dsimp only at hp
        omega
      · intro x hx y hy p hp
        rw [List.mem_map] at hx hy
        obtain ⟨r, hr, rfl⟩ := hx
        obtain ⟨b, hb, rfl⟩ := hy
        dsimp only at hp
        have hmem := (bbFull_mem (identify_insert_regions_pk sequence pk_features).1 0
          hchain p).mp ⟨b, hb, hp.2.1, hp.2.2⟩
        exact hmem.2.2 r hr ⟨hp.1.1, hp.1.2⟩

/-- The masked sequence built by create_annotated_sequence for a single
insert region on a nonempty sequence: the span [start, stop) is replaced
by the token INSERT_1. -/
theorem create_annotated_single (sequence : List Char) (r : InsertRegion)
    (hs : sequence ≠ []) :
    create_annotated_sequence sequence [r]
      = sequence.take r.start ++ insertToken 1 ++ sequence.drop r.stop := by
  unfold create_annotated_sequence
  rw [if_neg hs, if_neg (by simp)]
  rfl

/-- C7: for every sequence and every single insert region with valid
bounds, splicing the original span back over the placeholder token in the
masked sequence reconstructs the original sequence exactly; and with zero
insert regions the masked sequence is the original sequence unchanged. -/
theorem masked_sequence_round_trip (sequence : List Char) (r : InsertRegion)
    (h1 : r.start ≤ r.stop) (h2 : r.stop ≤ sequence.length) :
    ((create_annotated_sequence sequence [r]).take r.start
      ++ pySlice sequence r.start r.stop
      ++ (create_annotated_sequence sequence [r]).drop
          (r.start + (insertToken 1).length))
      = sequence
  ∧ create_annotated_sequence sequence [] = sequence := by
  constructor
  · by_cases hs : sequence = []
    · subst hs
      simp [create_annotated_sequence, pySlice]
    · rw [create_annotated_single sequence r hs]
      have hstart : r.start ≤ sequence.length := le_trans h1 h2
      have hlen : (sequence.take r.start).length = r.start := by
        rw [List.length_take]
        omega
      have htake : (sequence.take r.start ++ insertToken 1
            ++ sequence.drop r.stop).take r.start = sequence.take r.start := by
        rw [List.append_assoc, List.take_append_of_le_length (by rw [hlen])]
        rw [List.take_take, Nat.min_self]
      have hdrop : (sequence.take r.start ++ insertToken 1
            ++ sequence.drop r.stop).drop (r.start + (insertToken 1).length)
          = sequence.drop r.stop := by
        rw [show r.start + (insertToken 1).length
            = (sequence.take r.start ++ insertToken 1).length from by
          rw [List.length_append, hlen]]
        exact List.drop_left _ _
      rw [htake, hdrop]
      unfold pySlice
      have hdd : (sequence.drop r.start).drop (r.stop - r.start)
          = sequence.drop r.stop := by
        rw [List.drop_drop]
        congr 1
        omega
      calc sequence.take r.start ++ (sequence.drop r.start).take (r.stop - r.start)
            ++ sequence.drop r.stop
          = sequence.take r.start ++ ((sequence.drop r.start).take (r.stop - r.start)
            ++ (sequence.drop r.start).drop (r.stop - r.start)) := by
            rw [← hdd, List.append_assoc]
        _ = sequence.take r.start ++ sequence.drop r.start := by
            rw [List.take_append_drop]
        _ = sequence := List.take_append_drop _ _
  · by_cases hs : sequence = []
    · subst hs
      rfl
    · unfold create_annotated_sequence
      rw [if_neg hs]
      rfl

/-- C7 witness: on the twelve-base sequence AAAACCCCGGGG with the single
insert region [4, 8), splicing the original span back over the token
reconstructs the sequence, and masking with no regions is the identity. -/
theorem masked_sequence_round_trip_witness :
    ((mkGapRegion 4 8).start ≤ (mkGapRegion 4 8).stop
     ∧ (mkGapRegion 4 8).stop
        ≤ (['A','A','A','A','C','C','C','C','G','G','G','G'] : List Char).length)
  ∧ (((create_annotated_sequence ['A','A','A','A','C','C','C','C','G','G','G','G']
          [mkGapRegion 4 8]).take (mkGapRegion 4 8).start
      ++ pySlice ['A','A','A','A','C','C','C','C','G','G','G','G']
          (mkGapRegion 4 8).start (mkGapRegion 4 8).stop
      ++ (create_annotated_sequence ['A','A','A','A','C','C','C','C','G','G','G','G']
          [mkGapRegion 4 8]).drop
          ((mkGapRegion 4 8).start + (insertToken 1).length))
      = ['A','A','A','A','C','C','C','C','G','G','G','G']
     ∧ create_annotated_sequence ['A','A','A','A','C','C','C','C','G','G','G','G'] []
        = ['A','A','A','A','C','C','C','C','G','G','G','G']) :=
  ⟨⟨by decide, by decide⟩,
    masked_sequence_round_trip _ (mkGapRegion 4 8) (by decide) (by decide)⟩

/-- Permuted lists have the same finset of elements. -/
theorem perm_toFinset_eq {l₁ l₂ : List (List Char)} (h : l₁.Perm l₂) :
    l₁.toFinset = l₂.toFinset := by
  ext a
  simp [List.mem_toFinset, h.mem_iff]

/-- The set model pySetInsert keeps its accumulator duplicate-free. -/
theorem foldl_pySetInsert_nodup (l : List (List Char)) :
    ∀ acc : List (List Char), acc.Nodup → (l.foldl pySetInsert acc).Nodup := by
  induction l with
  | nil => exact fun _ h => h
  | cons x xs ih =>
    intro acc h
    rw [List.foldl_cons]
    refine ih _ ?_
    unfold pySetInsert
    split
    · exact h
    · next hx =>
      refine List.Nodup.append h (List.nodup_singleton x) ?_
      intro a ha hax
      rw [List.mem_singleton] at hax
      exact hx (hax ▸ ha)

/-- The elements accumulated by pySetInsert are the union of the
accumulator and the traversed list. -/
theorem foldl_pySetInsert_toFinset (l : List (List Char)) :
    ∀ acc : List (List Char),
      (l.foldl pySetInsert acc).toFinset = acc.toFinset ∪ l.toFinset := by
  induction l with
  | nil =>
    intro acc
    simp
  | cons x xs ih =>
    intro acc
    rw [List.foldl_cons, ih]
    unfold pySetInsert
    split
    · next hx =>
      ext a
      simp only [Finset.mem_union, List.mem_toFinset, List.toFinset_cons,
        Finset.mem_insert]
      constructor
      · rintro (ha | ha)
        · exact Or.inl ha
        · exact Or.inr (Or.inr ha)
      · rintro (ha | ha | ha)
        · exact Or.inl ha
        · exact Or.inl (ha ▸ hx)
        · exact Or.inr ha
    · ext a
      simp only [Finset.mem_union, List.mem_toFinset, List.toFinset_cons,
        Finset.mem_insert, List.mem_append, List.mem_singleton]
      tauto

/-- C9: the embedded partitioner pipeline and risk scorer are pure
functions of their inputs, so repeated invocation gives identical output;
and the one Python construct whose iteration order is implementation
defined, the k-mer set of calculate_linguistic_complexity, contributes
only its cardinality, which is invariant under any reordering of the
inserted k-mers. -/
theorem core_functions_deterministic (sequence : List Char)
    (pk_features : List Feature) (l₁ l₂ : List (List Char)) :
    (identify_insert_regions_pk sequence pk_features
        = identify_insert_regions_pk sequence pk_features
     ∧ calculate_backbone_regions sequence.length
          (identify_insert_regions_pk sequence pk_features).1
        = calculate_backbone_regions sequence.length
          (identify_insert_regions_pk sequence pk_features).1
     ∧ create_annotated_sequence sequence
          (identify_insert_regions_pk sequence pk_features).1
        = create_annotated_sequence sequence
          (identify_insert_regions_pk sequence pk_features).1
     ∧ score_sequence sequence = score_sequence sequence)
  ∧ (l₁.Perm l₂ →
      (l₁.foldl pySetInsert []).length = (l₂.foldl pySetInsert []).length) := by
  refine ⟨⟨rfl, rfl, rfl, rfl⟩, fun hp => ?_⟩
  have n₁ := foldl_pySetInsert_nodup l₁ [] List.nodup_nil
  have n₂ := foldl_pySetInsert_nodup l₂ [] List.nodup_nil
  have t₁ := foldl_pySetInsert_toFinset l₁ []
  have t₂ := foldl_pySetInsert_toFinset l₂ []
  simp only [List.toFinset_nil, Finset.empty_union] at t₁ t₂
  rw [← List.toFinset_card_of_nodup n₁, ← List.toFinset_card_of_nodup n₂, t₁, t₂,
    perm_toFinset_eq hp]

/-- C9 witness: two opposite insertion orders of the same two k-mers give
the same set cardinality. -/
theorem core_functions_deterministic_witness :
    (([['A'], ['C']] : List (List Char)).Perm [['C'], ['A']])
  ∧ ([['A'], ['C']].foldl pySetInsert []).length
      = ([['C'], ['A']].foldl pySetInsert []).length :=
  ⟨by decide, (core_functions_deterministic [] [] _ _).2 (by decide)⟩

set_option maxRecDepth 100000 in
/-- C8: for a 1000-base sequence with a single backbone feature covering
the first 400 bases, the partitioner returns exactly one insert region,
the trailing uncovered run, with start 400, end 1000 and length 600. -/
theorem trailing_gap_captured :
    (identify_insert_regions_pk (List.replicate 1000 'A')
        [Feature.mk (some ("rep_origin")) 0 400]).1 = [mkGapRegion 400 1000]
  ∧ (mkGapRegion 400 1000).start = 400
  ∧ (mkGapRegion 400 1000).stop = 1000
  ∧ (mkGapRegion 400 1000).length = 600 :=
  ⟨rfl, rfl, rfl, rfl⟩

